import Mathlib

/-!
Verification of the incremental photo-transcoding pipeline
(`process_photos.py`, with `migrate_to_avif.py` as collaborator).

The Python sources are shallowly embedded: Python dicts become
insertion-ordered association lists with Python `d[k] = v` / `d.update`
semantics, manifest values become an explicit sum of the legacy bare-hash
string and the structured record, and the worker's exception boundary
becomes an explicit outcome value.  Binary floating point, where it
matters (the resize arithmetic), is modelled exactly as round-to-nearest-
even at 53 significant bits over the rationals.
-/

namespace Photos

/-! ## Python dict model -/

/-- `d.get(k)` on a Python dict, modelled as the first binding of `k` in an
insertion-ordered association list. -/
def dictGet {α β : Type} [DecidableEq α] (d : List (α × β)) (k : α) : Option β :=
  (d.find? (fun p => decide (p.1 = k))).map Prod.snd

/-- `d[k] = v` on a Python dict: replace the value in place when the key is
present, append the new binding otherwise. -/
def dictSet {α β : Type} [DecidableEq α] (d : List (α × β)) (k : α) (v : β) :
    List (α × β) :=
  if d.any (fun p => decide (p.1 = k)) then
    d.map (fun p => if p.1 = k then (k, v) else p)
  else d ++ [(k, v)]

/-- `d.update(o)` on Python dicts: fold `d[k] = v` over the bindings of `o`
in order. -/
def dictUpdate {α β : Type} [DecidableEq α] (d o : List (α × β)) : List (α × β) :=
  o.foldl (fun acc p => dictSet acc p.1 p.2) d

/-- `d.pop(k)` (the removal effect): drop the binding of `k`, keeping every
other binding in order. -/
def dictPop {α β : Type} [DecidableEq α] (d : List (α × β)) (k : α) : List (α × β) :=
  d.filter (fun p => decide (p.1 ≠ k))

/-- The keys of a dict, in insertion order. -/
def dictKeys {α β : Type} (d : List (α × β)) : List α := d.map Prod.fst

/-- The value of the last binding of `k`, used to describe `dictUpdate`
(later bindings override earlier ones). -/
def dictGetLast {α β : Type} [DecidableEq α] (d : List (α × β)) (k : α) : Option β :=
  dictGet d.reverse k

/-! ## Manifest values

`manifest.json` maps a source filename either to a structured record
(a JSON object; its fields are strings here, matching the records the
pipeline itself writes) or, in the legacy schema, to a bare hash string. -/

/-- A manifest value: legacy bare hash string, or structured record. -/
inductive Entry : Type
  | legacy (s : String)
  | record (fields : List (String × String))
  deriving DecidableEq

/-- Python truthiness of a manifest value (`not entry`): the empty string
and the empty dict are falsy. -/
def entryFalsy : Entry → Bool
  | .legacy s => s.isEmpty
  | .record fields => fields.isEmpty

/-- A manifest: filename keyed, insertion ordered. -/
abbrev Manifest := List (String × Entry)

/-- User override document: filename to partial record. -/
abbrev Overrides := List (String × List (String × String))

/-! ## Change detection (process_photos.py lines 137-151) -/

/-- The `needs_processing` decision chain of `main`:
`if not entry` / `elif isinstance(entry, str)` /
`elif isinstance(entry, dict) and entry.get('hash') != file_hash` /
`elif not dest_file.exists()` / else fresh. -/
def needsProcessing (entry : Option Entry) (fileHash : String) (destExists : Bool) :
    Bool :=
  match entry with
  | none => true
  | some e =>
    if entryFalsy e then true
    else
      match e with
      | .legacy _ => true
      | .record fields =>
        if dictGet fields "hash" ≠ some fileHash then true
        else !destExists

/-- Spec-side classification outcome. -/
inductive Classification : Type
  | FRESH
  | REPROCESS
  deriving DecidableEq

/-- Modelled from the spec words (ChangeDetector contract, rules 1-5, in
order): no entry; legacy record regardless of its hash; stored hash
differing from the fresh hash; missing derivative output; otherwise fresh. -/
def specClassify (entry : Option Entry) (freshHash : String) (outputExists : Bool) :
    Classification :=
  match entry with
  | none => .REPROCESS
  | some (.legacy _) => .REPROCESS
  | some (.record fields) =>
    if dictGet fields "hash" ≠ some freshHash then .REPROCESS
    else if !outputExists then .REPROCESS
    else .FRESH

/-! ## Manifest loading (process_photos.py lines 97-104) -/

/-- What the filesystem offers at a path: nothing, or some bytes. -/
inductive FileRead : Type
  | missing
  | contents (s : String)

/-- `load_json`: return the parsed document; a missing file or a parse
failure (`json.JSONDecodeError`) degrades to the empty dict. -/
def load_json {β : Type} (r : FileRead) (parse : String → Option (List (String × β))) :
    List (String × β) :=
  match r with
  | .missing => []
  | .contents s =>
    match parse s with
    | some d => d
    | none => []

/-! ## Manifest saving (process_photos.py lines 106-108)

`save_json` is `open(path, 'w')` followed by `json.dump`: the open call
truncates the file in place, then the serialized bytes are written to the
same path.  We model the filesystem as a map from path to optional
contents and the save as its sequence of state transitions. -/

/-- A filesystem operation performed during a save. -/
inductive FsOp : Type
  | truncate (path : String)
  | write (path : String) (data : String)
  | rename (src dst : String)

/-- Effect of one operation on the filesystem. -/
def applyOp (fs : String → Option String) : FsOp → (String → Option String)
  | .truncate p => fun q => if q = p then some "" else fs q
  | .write p d => fun q => if q = p then some ((fs p).getD "" ++ d) else fs q
  | .rename src dst => fun q =>
      if q = dst then fs src else if q = src then none else fs q

/-- The operations `save_json(data, path)` performs, in order:
`open(path, 'w')` truncates `path`, then `json.dump` writes the document
to `path` (shown here as a single write; the real call writes many small
chunks, which only adds more intermediate states). -/
def save_json_ops (doc : String) (path : String) : List FsOp :=
  [.truncate path, .write path doc]

/-- Filesystem contents at `p` after a prefix of the save has run. -/
def contentAfter (fs : String → Option String) (ops : List FsOp) (p : String) :
    Option String :=
  (ops.foldl applyOp fs) p

/-! ## Codec migration, metadata step (migrate_to_avif.py lines 54-90)

One iteration of the migration loop, for a single source file.  Inputs:
whether a non-empty AVIF derivative already existed before the iteration
(`avifExists`), whether the conversion attempt succeeds when it runs
(`convertOk`; a successful `img.save` leaves a non-empty AVIF), the
shared metadata document, and the old/new filenames.  Output: the
metadata document after the iteration, paired with whether this
iteration actually performed a re-encode. -/

/-- `metadata[filename_avif] = metadata.pop(filename_heic)` guarded by
`if filename_heic in metadata`. -/
def renameKey (md : Overrides) (oldName newName : String) : Overrides :=
  match dictGet md oldName with
  | some v => dictSet (dictPop md oldName) newName v
  | none => md

/-- One loop iteration of `migrate_to_avif.main`: skip the conversion when
a non-empty AVIF is already present; otherwise attempt it, and on failure
`continue` without touching the metadata; whenever a non-empty AVIF is
present afterwards, move the metadata record from the old key to the new
key. -/
def migrateStep (avifExists convertOk : Bool) (md : Overrides)
    (oldName newName : String) : Overrides × Bool :=
  if avifExists then
    (renameKey md oldName newName, false)
  else if convertOk then
    (renameKey md oldName newName, true)
  else
    (md, false)

/-! ## EXIF capture-time extraction (process_photos.py lines 23-50) -/

/-- Numeric value of a decimal digit character. -/
def digitVal (c : Char) : ℕ := c.toNat - 48

/-- Gregorian leap year, as the `datetime` module computes it. -/
def isLeapYear (y : ℕ) : Bool := (y % 4 == 0 && y % 100 != 0) || (y % 400 == 0)

/-- Days in a month, as validated by `datetime`. -/
def daysInMonth (y m : ℕ) : ℕ :=
  if m = 2 then (if isLeapYear y then 29 else 28)
  else if m = 4 ∨ m = 6 ∨ m = 9 ∨ m = 11 then 30
  else 31

/-- A parsed whole-second timestamp. -/
structure Timestamp : Type where
  year : ℕ
  month : ℕ
  day : ℕ
  hour : ℕ
  minute : ℕ
  second : ℕ
  deriving DecidableEq

/-- The characters Python's regex `\s` matches on text (CPython's sre
engine uses the Unicode whitespace set): 0x09-0x0D, space, 0x1C-0x1F,
0x85, 0xA0, 0x1680, 0x2000-0x200A, 0x2028, 0x2029, 0x202F, 0x205F,
0x3000.  A literal space in a strptime format becomes `\s+`. -/
def pySpace (c : Char) : Bool :=
  let n := c.toNat
  (9 ≤ n && n ≤ 13) || n == 32 || (28 ≤ n && n ≤ 31) || n == 133 || n == 160 ||
    n == 5760 || (8192 ≤ n && n ≤ 8202) || n == 8232 || n == 8233 || n == 8239 ||
    n == 8287 || n == 12288

/-- A numeric strptime field such as `%m` (regex `1[0-2]|0[1-9]|[1-9]`):
the alternation takes two digits when two are available and one
otherwise, and is deterministic because the character following the
field in these formats is never a digit.  `lo1..hi1` bounds the
one-digit value, `lo2..hi2` the two-digit value. -/
def parseNum2 (lo1 hi1 lo2 hi2 : ℕ) : List Char → Option (ℕ × List Char)
  | c1 :: c2 :: rest =>
    if c1.isDigit then
      if c2.isDigit then
        let v := 10 * digitVal c1 + digitVal c2
        if lo2 ≤ v ∧ v ≤ hi2 then some (v, rest) else none
      else
        let v := digitVal c1
        if lo1 ≤ v ∧ v ≤ hi1 then some (v, c2 :: rest) else none
    else none
  | [c1] =>
    if c1.isDigit then
      let v := digitVal c1
      if lo1 ≤ v ∧ v ≤ hi1 then some (v, []) else none
    else none
  | [] => none

/-- A literal (non-whitespace) format character such as `:`. -/
def parseLit (c : Char) : List Char → Option (List Char)
  | c1 :: rest => if c1 = c then some rest else none
  | [] => none

/-- `\s+`: one or more whitespace characters (greedy is deterministic
here, as the following field starts with a digit). -/
def parseSpaces1 : List Char → Option (List Char)
  | c1 :: rest => if pySpace c1 then some (rest.dropWhile pySpace) else none
  | [] => none

/-- `%Y` (regex `\d\d\d\d`): exactly four digits. -/
def parseYear4 : List Char → Option (ℕ × List Char)
  | y1 :: y2 :: y3 :: y4 :: rest =>
    if y1.isDigit && y2.isDigit && y3.isDigit && y4.isDigit then
      some (1000 * digitVal y1 + 100 * digitVal y2 + 10 * digitVal y3 + digitVal y4,
        rest)
    else none
  | _ => none

/-- Model of `datetime.strptime(s, '%Y:%m:%d %H:%M:%S')`, following
CPython's `_strptime`: `%Y` is exactly four digits; `%m` and `%d` accept
one unpadded digit `1-9` or two digits in range (`01`-`12`, `01`-`31`);
`%H`, `%M`, `%S` accept one digit `0-9` or two digits in range (`00`-`23`,
`00`-`59`); the literal space matches one or more whitespace characters;
the whole string must be consumed; then the `datetime` constructor
validates the calendar (year at least 1, day within the month).  Any
failure raises `ValueError`, modelled as `none`.  (Digits are modelled as
ASCII digits; CPython's `\d` would also accept other Unicode decimal
digits, which do not occur in EXIF timestamp values.) -/
def parseExifTimestamp (s : String) : Option Timestamp :=
  (parseYear4 s.toList).bind fun py =>
  (parseLit ':' py.2).bind fun r2 =>
  (parseNum2 1 9 1 12 r2).bind fun pm =>
  (parseLit ':' pm.2).bind fun r4 =>
  (parseNum2 1 9 1 31 r4).bind fun pd =>
  (parseSpaces1 pd.2).bind fun r6 =>
  (parseNum2 0 9 0 23 r6).bind fun ph =>
  (parseLit ':' ph.2).bind fun r8 =>
  (parseNum2 0 9 0 59 r8).bind fun pn =>
  (parseLit ':' pn.2).bind fun r10 =>
  (parseNum2 0 9 0 59 r10).bind fun ps =>
  match ps.2 with
  | [] =>
    if 1 ≤ py.1 ∧ pd.1 ≤ daysInMonth py.1 pm.1 then
      some ⟨py.1, pm.1, pd.1, ph.1, pn.1, ps.1⟩
    else none
  | _ => none

/-- Zero-pad to two digits. -/
def pad2 (n : ℕ) : String := if n < 10 then "0" ++ toString n else toString n

/-- Zero-pad to four digits. -/
def pad4 (n : ℕ) : String :=
  if n < 10 then "000" ++ toString n
  else if n < 100 then "00" ++ toString n
  else if n < 1000 then "0" ++ toString n
  else toString n

/-- `datetime.isoformat()` for a whole-second timestamp. -/
def isoformat (t : Timestamp) : String :=
  pad4 t.year ++ "-" ++ pad2 t.month ++ "-" ++ pad2 t.day ++ "T" ++
    pad2 t.hour ++ ":" ++ pad2 t.minute ++ ":" ++ pad2 t.second

/-- The fragment of `PIL.ExifTags.TAGS` relevant to `get_exif_data`, plus a
few further decodable tag ids: a tag decoding to any name other than
`DateTimeOriginal` or `DateTime` is ignored by the loop, as is a tag id
absent from the table. -/
def TAGS : List (ℕ × String) :=
  [(271, "Make"), (272, "Model"), (274, "Orientation"),
   (306, "DateTime"), (36867, "DateTimeOriginal"), (36868, "DateTimeDigitized")]

/-- One step of the `for key, val in exif.items()` loop of `get_exif_data`:
`DateTimeOriginal` always stores the value; `DateTime` stores it only when
nothing is stored yet; everything else is skipped. -/
def exifStep (d : List (String × String)) (kv : ℕ × String) : List (String × String) :=
  match dictGet TAGS kv.1 with
  | some decoded =>
    if decoded = "DateTimeOriginal" then dictSet d "date_taken" kv.2
    else if decoded = "DateTime" then
      match dictGet d "date_taken" with
      | none => dictSet d "date_taken" kv.2
      | some _ => d
    else d
  | none => d

/-- `get_exif_data`: scan the EXIF mapping (tag id to value) for the
capture-time tags, then standardize a found timestamp to ISO-8601,
keeping the raw string when the format does not parse. -/
def get_exif_data (exif : List (ℕ × String)) : List (String × String) :=
  let d := exif.foldl exifStep []
  match dictGet d "date_taken" with
  | some v =>
    match parseExifTimestamp v with
    | some t => dictSet d "date_taken" (isoformat t)
    | none => d
  | none => d

/-- Normalization exactly as the spec phrases it: parse the
capture-metadata timestamp format and render ISO-8601, silently
preserving the raw value when parsing fails. -/
def normalizeTimestamp (v : String) : String :=
  match parseExifTimestamp v with
  | some t => isoformat t
  | none => v

/-! ## Resize arithmetic (process_photos.py lines 82-87)

Python floats are IEEE-754 binary64.  The two divisions, the `min` and
the two multiplications of the resize computation are modelled exactly:
each operation is the true rational result rounded to 53 significant
bits, round-to-nearest with ties to even.  Rationals are carried as
unreduced numerator-denominator pairs of naturals (every quantity here
is nonnegative and far from the subnormal and overflow ranges, where
this is the complete binary64 semantics), and `int(...)` truncates
toward zero, which on these nonnegative values is the floor. -/

/-- An unreduced nonnegative fraction `num / den`. -/
structure Frac : Type where
  num : ℕ
  den : ℕ
  deriving DecidableEq

/-- Floor of the base-2 logarithm, with explicit structural fuel so that
it evaluates by kernel reduction; `log2Floor n n` is the floor log of
`n ≥ 1`. -/
def log2Floor : ℕ → ℕ → ℕ
  | 0, _ => 0
  | f + 1, n => if 2 ≤ n then log2Floor f (n / 2) + 1 else 0

/-- Smallest `j` (plus the accumulator) with `b ≤ a * 2 ^ j`, fueled. -/
def negExp : ℕ → ℕ → ℕ → ℕ → ℕ
  | 0, _, _, j => j
  | f + 1, a, b, j => if b ≤ a then j else negExp f (2 * a) b (j + 1)

/-- Round-half-to-even of the fraction `n / d` to an integer (`d > 0`). -/
def rhe (n d : ℕ) : ℕ :=
  let q := n / d
  let r := n % d
  if 2 * r < d then q
  else if d < 2 * r then q + 1
  else if q % 2 = 0 then q else q + 1

/-- Round the positive fraction `q` to the nearest IEEE-754 binary64
value (53 significant bits, ties to even), exactly, as a fraction whose
denominator is a power of two. -/
def roundDouble (q : Frac) : Frac :=
  if q.num = 0 ∨ q.den = 0 then q
  else if q.den ≤ q.num then
    let e := log2Floor (q.num / q.den) (q.num / q.den)
    if e ≤ 52 then
      let k := 52 - e
      ⟨rhe (q.num * 2 ^ k) q.den, 2 ^ k⟩
    else
      let g := e - 52
      ⟨rhe q.num (q.den * 2 ^ g) * 2 ^ g, 1⟩
  else
    let j := negExp q.den q.num q.den 0
    let k := 52 + j
    ⟨rhe (q.num * 2 ^ k) q.den, 2 ^ k⟩

/-- Python `min` on two doubles: the first argument when less or equal. -/
def fracMin (x y : Frac) : Frac :=
  if x.num * y.den ≤ y.num * x.den then x else y

/-- The dimension computation of `process_image`: when either dimension
exceeds `MAX_DIMENSION = 2400`, compute
`ratio = min(2400 / width, 2400 / height)` in double precision and take
`(int(width * ratio), int(height * ratio))`; otherwise keep the image
unresized. -/
def resizeDims (width height : ℕ) : ℕ × ℕ :=
  if 2400 < width ∨ 2400 < height then
    let r := fracMin (roundDouble ⟨2400, width⟩) (roundDouble ⟨2400, height⟩)
    let nw := roundDouble ⟨width * r.num, r.den⟩
    let nh := roundDouble ⟨height * r.num, r.den⟩
    (nw.num / nw.den, nh.num / nh.den)
  else (width, height)

/-! ## The pipeline run (process_photos.py main, lines 110-187) -/

/-- `Path(name).stem`: the name minus its suffix; the suffix starts at the
last dot, provided that dot is neither the first nor the last character. -/
def stem (name : String) : String :=
  let cs := name.toList
  let n := cs.length
  match ((List.range n).filter (fun i => cs.getD i ' ' = '.')).getLast? with
  | some i => if 0 < i ∧ i < n - 1 then String.mk (cs.take i) else name
  | none => name

/-- Worker outcome at the exception boundary of `process_image`: either
the decoded image's EXIF mapping (open, decode and encode all ran to
completion), or an exception anywhere in between. -/
inductive TranscodeOutcome : Type
  | ok (exif : List (ℕ × String))
  | err

/-- Whether a worker outcome is a success. -/
def TranscodeOutcome.isOk : TranscodeOutcome → Bool
  | .ok _ => true
  | .err => false

/-- The metadata a worker outcome yields: the extracted EXIF data on
success, the empty dict on failure. -/
def outcomeMeta : TranscodeOutcome → List (String × String)
  | .ok exif => get_exif_data exif
  | .err => []

/-- `process_image` (lines 61-95) at its task boundary: returns
`(filename, hash, success, metadata)`; any exception during open, decode
or encode is caught inside and reported as a per-file failure with empty
metadata — it never escapes the task. -/
def process_image (task : String × String) (outcome : TranscodeOutcome) :
    String × String × Bool × List (String × String) :=
  match outcome with
  | .ok exif => (task.1, task.2, true, get_exif_data exif)
  | .err => (task.1, task.2, false, [])

/-- A run environment: the scanned source listing (in `os.listdir` order,
already restricted to supported extensions), each file's content hash,
which derivative outputs exist at scan time (keyed by the derivative
filename), the user override document, and each file's worker outcome. -/
structure Env : Type where
  files : List String
  fileHash : String → String
  destExists : String → Bool
  userMeta : Overrides
  outcome : String → TranscodeOutcome

/-- One iteration of the scanning loop (lines 129-161): classify the
file; enqueue a task, or copy the existing entry into the new manifest
and merge the user overrides immediately.  (The non-record branches of
the copy are unreachable: a missing or legacy entry always needs
processing.) -/
def scanStep (env : Env) (cm : Manifest) (acc : Manifest × List (String × String))
    (filename : String) : Manifest × List (String × String) :=
  let fh := env.fileHash filename
  let de := env.destExists (stem filename ++ ".webp")
  if needsProcessing (dictGet cm filename) fh de then
    (acc.1, acc.2 ++ [(filename, fh)])
  else
    match dictGet cm filename with
    | some (.record fields) =>
      let merged :=
        match dictGet env.userMeta filename with
        | some ov => Entry.record (dictUpdate fields ov)
        | none => Entry.record fields
      (dictSet acc.1 filename merged, acc.2)
    | some (.legacy s) => (dictSet acc.1 filename (Entry.legacy s), acc.2)
    | none => acc

/-- The scanning loop over the directory listing. -/
def scanFiles (env : Env) (cm : Manifest) : Manifest × List (String × String) :=
  env.files.foldl (scanStep env cm) ([], [])

/-- The record built for one successful transcode (lines 171-182): the
baseline `hash`, `filename` and `optimized_path` fields, the extracted
metadata unpacked over them, then the user overrides merged on top. -/
def resultEntry (env : Env) (filename fh : String)
    (meta : List (String × String)) : List (String × String) :=
  let base := dictUpdate
    [("hash", fh), ("filename", filename),
      ("optimized_path", "optimized/" ++ stem filename ++ ".webp")] meta
  match dictGet env.userMeta filename with
  | some ov => dictUpdate base ov
  | none => base

/-- The result-merging loop (lines 169-183): each successful result adds
its record to the new manifest; failures contribute nothing. -/
def mergeResults (env : Env) (tasks : List (String × String)) (nm : Manifest) :
    Manifest :=
  (tasks.map (fun t => process_image t (env.outcome t.1))).foldl
    (fun acc r =>
      if r.2.2.1 then
        dictSet acc r.1 (Entry.record (resultEntry env r.1 r.2.1 r.2.2.2))
      else acc)
    nm

/-- One full `main` run: scan, transcode, merge.  Returns the manifest
that is saved and the task list that was sent to the pool. -/
def runMain (env : Env) (cm : Manifest) : Manifest × List (String × String) :=
  let st := scanFiles env cm
  (mergeResults env st.2 st.1, st.2)

/-- The environment as a following run sees it when nothing changed in
between: the derivatives written by this run's successful transcodes now
exist; listing, hashes, overrides and outcomes are untouched. -/
def envAfter (env : Env) (tasks : List (String × String)) : Env :=
  Env.mk env.files env.fileHash
    (fun s =>
      env.destExists s ||
        tasks.any (fun t => (env.outcome t.1).isOk && (stem t.1 ++ ".webp" == s)))
    env.userMeta env.outcome

/-- Whether the scanning loop classifies `f` as fresh (copy forward)
rather than needing processing. -/
def isFresh (env : Env) (cm : Manifest) (f : String) : Bool :=
  !needsProcessing (dictGet cm f) (env.fileHash f)
    (env.destExists (stem f ++ ".webp"))

/-- The entry the scanning loop copies forward for a fresh file (the
non-record fallbacks are unreachable for a fresh file). -/
def freshEntry (env : Env) (cm : Manifest) (f : String) : Entry :=
  match dictGet cm f with
  | some (.record fields) =>
    (match dictGet env.userMeta f with
      | some ov => Entry.record (dictUpdate fields ov)
      | none => Entry.record fields)
  | some (.legacy s) => Entry.legacy s
  | none => Entry.record []

/-! ## Manifest serialization (`json.dump(new_manifest, f, indent=2)`)

Keys are written in dict insertion order; two manifests serialize to the
same bytes exactly when they are equal as ordered association lists. -/

/-- A JSON string literal (the manifest contents here need no escaping). -/
def jsonStr (s : String) : String := "\"" ++ s ++ "\""

/-- The nested record object, indented two levels. -/
def dumpFields (fields : List (String × String)) : String :=
  match fields with
  | [] => "\x7b\x7d"
  | _ =>
    "\x7b\n" ++
      String.intercalate ",\n"
        (fields.map (fun p => "    " ++ jsonStr p.1 ++ ": " ++ jsonStr p.2)) ++
      "\n  \x7d"

/-- One manifest value. -/
def dumpEntry : Entry → String
  | .legacy s => jsonStr s
  | .record fields => dumpFields fields

/-- The serialized manifest document. -/
def jsonDump (m : Manifest) : String :=
  match m with
  | [] => "\x7b\x7d"
  | _ =>
    "\x7b\n" ++
      String.intercalate ",\n"
        (m.map (fun p => "  " ++ jsonStr p.1 ++ ": " ++ dumpEntry p.2)) ++
      "\n\x7d"

/-! ## Concrete run environments used in the evaluations -/

/-- Two source files: `b.jpg` already tracked with a matching hash and an
existing derivative, `a.jpg` new; no overrides; every transcode succeeds. -/
def envMix : Env :=
  Env.mk ["a.jpg", "b.jpg"]
    (fun f => if f = "a.jpg" then "ha" else "hb")
    (fun s => s = "b.webp")
    []
    (fun _ => TranscodeOutcome.ok [])

/-- The prior manifest tracking only `b.jpg`. -/
def cmMix : Manifest := [("b.jpg", Entry.record [("hash", "hb")])]

/-- Two source files; the transcode of `bad.jpg` raises. -/
def envFail : Env :=
  Env.mk ["good.jpg", "bad.jpg"] (fun _ => "h") (fun _ => false) []
    (fun f => if f = "bad.jpg" then TranscodeOutcome.err else TranscodeOutcome.ok [])

/-- One tracked fresh file with a user override on `location`. -/
def envFresh : Env :=
  Env.mk ["a.jpg"] (fun _ => "h") (fun s => s = "a.webp")
    [("a.jpg", [("location", "oslo")])]
    (fun _ => TranscodeOutcome.ok [])

/-- The prior manifest for `envFresh`. -/
def cmFresh : Manifest := [("a.jpg", Entry.record [("hash", "h"), ("location", "x")])]

/-- One new file whose override carries the reserved `hash` field. -/
def envClobber : Env :=
  Env.mk ["a.jpg"] (fun _ => "realhash") (fun _ => false)
    [("a.jpg", [("hash", "deadbeef")])]
    (fun _ => TranscodeOutcome.ok [])

end Photos

namespace Photos

/-! ## Association-list dict lemmas -/

theorem dictGet_nil {α β : Type} [DecidableEq α] (k : α) :
    dictGet ([] : List (α × β)) k = none := rfl

theorem dictGet_cons {α β : Type} [DecidableEq α] (a : α × β) (d : List (α × β)) (k : α) :
    dictGet (a :: d) k = if a.1 = k then some a.2 else dictGet d k := by
  by_cases h : a.1 = k <;> simp [dictGet, List.find?_cons, h]

theorem dictGet_append {α β : Type} [DecidableEq α] (l m : List (α × β)) (k : α) :
    dictGet (l ++ m) k = (dictGet l k).or (dictGet m k) := by
  simp only [dictGet, List.find?_append]
  cases List.find? (fun p => decide (p.1 = k)) l <;> simp

theorem dictGet_eq_none_iff {α β : Type} [DecidableEq α] (d : List (α × β)) (k : α) :
    dictGet d k = none ↔ k ∉ dictKeys d := by
  simp only [dictGet, Option.map_eq_none', List.find?_eq_none, dictKeys, List.mem_map]
  constructor
  · rintro h ⟨p, hp, rfl⟩
    exact h p hp (by simp)
  · intro h p hp
    simp only [decide_eq_true_eq]
    intro hpk
    exact h ⟨p, hp, hpk⟩

theorem mem_of_dictGet_eq_some {α β : Type} [DecidableEq α] {d : List (α × β)} {k : α}
    {v : β} (h : dictGet d k = some v) : (k, v) ∈ d := by
  simp only [dictGet] at h
  obtain ⟨p0, hfind, hsnd⟩ := Option.map_eq_some'.mp h
  have h1 : p0.1 = k := by simpa using List.find?_some hfind
  have h2 := List.mem_of_find?_eq_some hfind
  obtain ⟨x, y⟩ := p0
  simp only at h1 hsnd
  rw [h1, hsnd] at h2
  exact h2

theorem dictGet_of_mem_nodup {α β : Type} [DecidableEq α] {d : List (α × β)}
    {p : α × β} (hnd : (dictKeys d).Nodup) (hp : p ∈ d) : dictGet d p.1 = some p.2 := by
  induction d with
  | nil => cases hp
  | cons a t ih =>
    simp only [dictKeys, List.map_cons, List.nodup_cons] at hnd
    rcases List.mem_cons.mp hp with h | h
    · subst h; simp [dictGet_cons]
    · have hne : a.1 ≠ p.1 := by
        intro he
        exact hnd.1 (he ▸ List.mem_map_of_mem Prod.fst h)
      rw [dictGet_cons, if_neg hne]
      exact ih hnd.2 h

theorem dictGet_set {α β : Type} [DecidableEq α] (d : List (α × β)) (k k' : α) (v : β) :
    dictGet (dictSet d k v) k' = if k = k' then some v else dictGet d k' := by
  unfold dictSet
  by_cases hmem : d.any (fun p => decide (p.1 = k))
  · rw [if_pos hmem]
    by_cases hk : k = k'
    · subst hk
      simp only [dictGet, List.find?_map, if_pos]
      have hq : ((fun p : α × β => decide (p.1 = k)) ∘
          (fun p : α × β => if p.1 = k then (k, v) else p)) =
          (fun p : α × β => decide (p.1 = k)) := by
        funext p
        by_cases hp : p.1 = k <;> simp [hp]
      rw [hq]
      have hs : (List.find? (fun p : α × β => decide (p.1 = k)) d).isSome := by
        rw [List.find?_isSome]
        simpa using List.any_eq_true.mp hmem
      cases h0 : List.find? (fun p : α × β => decide (p.1 = k)) d with
      | none => rw [h0] at hs; cases hs
      | some p0 =>
        have hp0 : p0.1 = k := by simpa using List.find?_some h0
        simp [hp0]
    · simp only [dictGet, List.find?_map]
      have hq : ((fun p : α × β => decide (p.1 = k')) ∘
          (fun p : α × β => if p.1 = k then (k, v) else p)) =
          (fun p : α × β => decide (p.1 = k')) := by
        funext p
        by_cases hp : p.1 = k
        · simp [hp, hk]
        · simp [hp]
      rw [hq, if_neg hk]
      cases h0 : List.find? (fun p : α × β => decide (p.1 = k')) d with
      | none => rfl
      | some p0 =>
        have hp0 : p0.1 = k' := by simpa using List.find?_some h0
        have hne : ¬ p0.1 = k := fun he => hk (he.symm.trans hp0)
        simp [hne]
  · rw [if_neg hmem, dictGet_append]
    have hnone : dictGet d k = none := by
      rw [dictGet_eq_none_iff]
      intro hin
      apply hmem
      rw [List.any_eq_true]
      simp only [dictKeys, List.mem_map] at hin
      obtain ⟨p, hp, hpk⟩ := hin
      exact ⟨p, hp, by simpa using hpk⟩
    by_cases hk : k = k'
    · subst hk
      simp [hnone, dictGet_cons]
    · simp [dictGet_cons, hk, dictGet_nil, Option.or_none]

theorem dictKeys_set {α β : Type} [DecidableEq α] (d : List (α × β)) (k : α) (v : β) :
    dictKeys (dictSet d k v) =
      if k ∈ dictKeys d then dictKeys d else dictKeys d ++ [k] := by
  unfold dictSet
  have hmem_iff : (d.any fun p => decide (p.1 = k)) = true ↔ k ∈ dictKeys d := by
    simp only [List.any_eq_true, decide_eq_true_eq, dictKeys, List.mem_map]
  by_cases hmem : d.any (fun p => decide (p.1 = k))
  · rw [if_pos hmem, if_pos (hmem_iff.mp hmem)]
    simp only [dictKeys, List.map_map]
    apply List.map_congr_left
    intro p _
    by_cases hp : p.1 = k <;> simp [hp]
  · rw [if_neg hmem, if_neg (fun h => hmem (hmem_iff.mpr h))]
    simp [dictKeys]

theorem dictSet_ne_nil {α β : Type} [DecidableEq α] (d : List (α × β)) (k : α) (v : β) :
    dictSet d k v ≠ [] := by
  unfold dictSet
  by_cases hmem : d.any (fun p => decide (p.1 = k))
  · rw [if_pos hmem]
    intro h
    rw [List.map_eq_nil_iff] at h
    subst h
    simp at hmem
  · rw [if_neg hmem]
    simp

theorem dictSet_eq_self {α β : Type} [DecidableEq α] {d : List (α × β)} {k : α} {v : β}
    (hnd : (dictKeys d).Nodup) (h : dictGet d k = some v) : dictSet d k v = d := by
  have hmem : (d.any fun p => decide (p.1 = k)) = true := by
    rw [List.any_eq_true]
    exact ⟨(k, v), mem_of_dictGet_eq_some h, by simp⟩
  unfold dictSet
  rw [if_pos hmem]
  conv_rhs => rw [show d = d.map id from (List.map_id d).symm]
  apply List.map_congr_left
  intro p hp
  by_cases hpk : p.1 = k
  · have hv : dictGet d k = some p.2 := hpk ▸ dictGet_of_mem_nodup hnd hp
    have : p.2 = v := by
      rw [h] at hv
      exact (Option.some.injEq _ _ ▸ hv).symm
    obtain ⟨x, y⟩ := p
    simp only at hpk this
    simp [hpk, this]
  · simp [hpk]

theorem dictKeys_set_nodup {α β : Type} [DecidableEq α] {d : List (α × β)} (k : α)
    (v : β) (hnd : (dictKeys d).Nodup) : (dictKeys (dictSet d k v)).Nodup := by
  rw [dictKeys_set]
  by_cases h : k ∈ dictKeys d
  · simpa [h] using hnd
  · simp only [h, if_false]
    rw [List.nodup_append]
    exact ⟨hnd, List.nodup_singleton k, by simpa using h⟩

theorem dictUpdate_cons {α β : Type} [DecidableEq α] (d : List (α × β)) (a : α × β)
    (o : List (α × β)) : dictUpdate d (a :: o) = dictUpdate (dictSet d a.1 a.2) o := rfl

theorem dictKeys_update_nodup {α β : Type} [DecidableEq α] {d : List (α × β)}
    (o : List (α × β)) (hnd : (dictKeys d).Nodup) : (dictKeys (dictUpdate d o)).Nodup := by
  induction o generalizing d with
  | nil => exact hnd
  | cons a t ih => exact dictUpdate_cons d a t ▸ ih (dictKeys_set_nodup a.1 a.2 hnd)

theorem dictUpdate_ne_nil {α β : Type} [DecidableEq α] {d : List (α × β)}
    (o : List (α × β)) (hd : d ≠ []) : dictUpdate d o ≠ [] := by
  induction o generalizing d with
  | nil => exact hd
  | cons a t ih => exact dictUpdate_cons d a t ▸ ih (dictSet_ne_nil d a.1 a.2)

theorem dictGetLast_cons {α β : Type} [DecidableEq α] (a : α × β) (o : List (α × β))
    (k : α) :
    dictGetLast (a :: o) k =
      (dictGetLast o k).or (if a.1 = k then some a.2 else none) := by
  unfold dictGetLast
  rw [List.reverse_cons, dictGet_append]
  congr 1
  rw [dictGet_cons, dictGet_nil]

theorem dictGet_update {α β : Type} [DecidableEq α] (d o : List (α × β)) (k : α) :
    dictGet (dictUpdate d o) k = (dictGetLast o k).or (dictGet d k) := by
  induction o generalizing d with
  | nil => simp [dictUpdate, dictGetLast, dictGet_nil]
  | cons a t ih =>
    rw [dictUpdate_cons, ih, dictGet_set, dictGetLast_cons, Option.or_assoc]
    congr 1
    by_cases h : a.1 = k <;> simp [h]

theorem dictGetLast_eq_none_iff {α β : Type} [DecidableEq α] (o : List (α × β)) (k : α) :
    dictGetLast o k = none ↔ k ∉ dictKeys o := by
  unfold dictGetLast
  rw [dictGet_eq_none_iff]
  simp [dictKeys]

theorem dictGetLast_of_nodup {α β : Type} [DecidableEq α] {o : List (α × β)} (k : α)
    (hnd : (dictKeys o).Nodup) : dictGetLast o k = dictGet o k := by
  cases h : dictGet o k with
  | none =>
    rw [dictGetLast_eq_none_iff]
    exact (dictGet_eq_none_iff o k).mp h
  | some v =>
    have hmem : (k, v) ∈ o.reverse := List.mem_reverse.mpr (mem_of_dictGet_eq_some h)
    have hndr : (dictKeys o.reverse).Nodup := by
      simpa [dictKeys] using hnd
    exact dictGet_of_mem_nodup hndr hmem

theorem dictUpdate_eq_self {α β : Type} [DecidableEq α] {d o : List (α × β)}
    (hd : (dictKeys d).Nodup) (ho : (dictKeys o).Nodup)
    (h : ∀ k v, dictGet o k = some v → dictGet d k = some v) :
    dictUpdate d o = d := by
  induction o with
  | nil => rfl
  | cons a t ih =>
    simp only [dictKeys, List.map_cons, List.nodup_cons] at ho
    have ha : dictGet d a.1 = some a.2 := h a.1 a.2 (by rw [dictGet_cons]; simp)
    rw [dictUpdate_cons, dictSet_eq_self hd ha]
    apply ih ho.2
    intro k v hkv
    apply h
    rw [dictGet_cons, if_neg ?hne]
    · exact hkv
    case hne =>
      intro he
      apply ho.1
      have := mem_of_dictGet_eq_some hkv
      exact he ▸ List.mem_map_of_mem Prod.fst this

theorem dictUpdate_idem {α β : Type} [DecidableEq α] {d o : List (α × β)}
    (hd : (dictKeys d).Nodup) (ho : (dictKeys o).Nodup) :
    dictUpdate (dictUpdate d o) o = dictUpdate d o := by
  apply dictUpdate_eq_self (dictKeys_update_nodup o hd) ho
  intro k v h
  rw [dictGet_update, dictGetLast_of_nodup k ho, h]
  rfl

theorem dictGet_pop_self {α β : Type} [DecidableEq α] (d : List (α × β)) (k : α) :
    dictGet (dictPop d k) k = none := by
  rw [dictGet_eq_none_iff]
  intro h
  simp only [dictKeys, dictPop, List.mem_map] at h
  obtain ⟨p, hp, hpk⟩ := h
  have := (List.mem_filter.mp hp).2
  simp only [decide_eq_true_eq] at this
  exact this hpk

theorem dictGet_pop_other {α β : Type} [DecidableEq α] (d : List (α × β)) (k k' : α)
    (h : k' ≠ k) : dictGet (dictPop d k) k' = dictGet d k' := by
  induction d with
  | nil => rfl
  | cons a t ih =>
    by_cases hak : a.1 = k
    · have : dictPop (a :: t) k = dictPop t k := by
        simp [dictPop, hak]
      rw [this, ih, dictGet_cons, if_neg (fun he => h ((hak.symm.trans he).symm))]
    · have : dictPop (a :: t) k = a :: dictPop t k := by
        simp [dictPop, hak]
      rw [this, dictGet_cons, dictGet_cons, ih]

/-! ## C1: change classification follows the spec rules in order -/

/-- C1: for every filename's manifest entry, fresh hash and
output-existence flag, the code's `needs_processing` chain computes
exactly the spec's ordered classification: no entry, legacy bare-hash
string (regardless of hash equality), stored-hash mismatch, missing
output, otherwise fresh. -/
theorem change_detection_follows_spec (entry : Option Entry) (fileHash : String)
    (destExists : Bool) :
    needsProcessing entry fileHash destExists = true ↔
      specClassify entry fileHash destExists = Classification.REPROCESS := by
  cases entry with
  | none => simp [needsProcessing, specClassify]
  | some e =>
    cases e with
    | legacy s => simp [needsProcessing, specClassify, entryFalsy]
    | record fields =>
      cases fields with
      | nil => simp [needsProcessing, specClassify, entryFalsy, dictGet]
      | cons a t =>
        by_cases hh : dictGet (a :: t) "hash" = some fileHash
        · cases destExists <;>
            simp [needsProcessing, specClassify, entryFalsy, hh]
        · simp [needsProcessing, specClassify, entryFalsy, hh]

/-! ## EXIF extraction lemmas -/

theorem exifStep_dto (d : List (String × String)) (v : String) :
    exifStep d (36867, v) = dictSet d "date_taken" v := rfl

theorem exifStep_dt_set (d : List (String × String)) (v : String)
    (h : dictGet d "date_taken" = none) :
    exifStep d (306, v) = dictSet d "date_taken" v := by
  unfold exifStep
  simp only [show dictGet TAGS (306, v).1 = some "DateTime" from rfl]
  simp [h]

theorem exifStep_dt_skip (d : List (String × String)) (u v : String)
    (h : dictGet d "date_taken" = some u) : exifStep d (306, v) = d := by
  unfold exifStep
  simp only [show dictGet TAGS (306, v).1 = some "DateTime" from rfl]
  simp [h]

theorem exifStep_other (d : List (String × String)) (k : ℕ) (v : String)
    (h1 : k ≠ 36867) (h2 : k ≠ 306) : exifStep d (k, v) = d := by
  unfold exifStep
  cases hT : dictGet TAGS (k, v).1 with
  | none => rfl
  | some name =>
    have hmem := mem_of_dictGet_eq_some hT
    simp only [TAGS, List.mem_cons, List.not_mem_nil, or_false, Prod.mk.injEq] at hmem
    rcases hmem with ⟨rfl, rfl⟩ | ⟨rfl, rfl⟩ | ⟨rfl, rfl⟩ | ⟨rfl, rfl⟩ | ⟨rfl, rfl⟩ |
      ⟨rfl, rfl⟩
    · simp
    · simp
    · simp
    · exact absurd rfl h2
    · exact absurd rfl h1
    · simp

theorem exifFold_dated (exif : List (ℕ × String)) (v : String) :
    exif.foldl exifStep [("date_taken", v)] =
      [("date_taken", (dictGetLast exif 36867).getD v)] := by
  induction exif generalizing v with
  | nil => simp [dictGetLast, dictGet_nil]
  | cons a t ih =>
    obtain ⟨k, w⟩ := a
    rw [List.foldl_cons]
    by_cases h1 : k = 36867
    · subst h1
      rw [exifStep_dto]
      have hset : dictSet [("date_taken", v)] "date_taken" w = [("date_taken", w)] := by
        simp [dictSet]
      rw [hset, ih, dictGetLast_cons]
      cases dictGetLast t 36867 <;> simp
    · by_cases h2 : k = 306
      · subst h2
        rw [exifStep_dt_skip [("date_taken", v)] v w rfl, ih, dictGetLast_cons]
        simp [h1]
      · rw [exifStep_other _ _ _ h1 h2, ih, dictGetLast_cons]
        simp [h1]

theorem exifFold_empty (exif : List (ℕ × String)) :
    exif.foldl exifStep [] =
      match dictGetLast exif 36867, dictGet exif 306 with
      | some w, _ => [("date_taken", w)]
      | none, some w => [("date_taken", w)]
      | none, none => [] := by
  induction exif with
  | nil => rfl
  | cons a t ih =>
    obtain ⟨k, w⟩ := a
    rw [List.foldl_cons]
    by_cases h1 : k = 36867
    · subst h1
      rw [exifStep_dto]
      have hset : dictSet [] "date_taken" w = [("date_taken", w)] := rfl
      rw [hset, exifFold_dated, dictGetLast_cons]
      cases dictGetLast t 36867 <;> simp
    · by_cases h2 : k = 306
      · subst h2
        rw [exifStep_dt_set [] w rfl]
        have hset : dictSet [] "date_taken" w = [("date_taken", w)] := rfl
        rw [hset, exifFold_dated, dictGetLast_cons, dictGet_cons]
        simp only [h1, if_false, if_pos rfl, Option.or_none]
        cases dictGetLast t 36867 <;> simp
      · rw [exifStep_other _ _ _ h1 h2, ih, dictGetLast_cons, dictGet_cons]
        simp [h1, h2]

theorem get_exif_data_eq (exif : List (ℕ × String)) :
    get_exif_data exif =
      match dictGetLast exif 36867, dictGet exif 306 with
      | some v, _ => [("date_taken", normalizeTimestamp v)]
      | none, some v => [("date_taken", normalizeTimestamp v)]
      | none, none => [] := by
  simp only [get_exif_data]
  rw [exifFold_empty]
  cases hL : dictGetLast exif 36867 with
  | some v =>
    have hg : dictGet [("date_taken", v)] "date_taken" = some v := rfl
    simp only [hg]
    cases hp : parseExifTimestamp v with
    | some t => simp [normalizeTimestamp, hp, dictSet]
    | none => simp [normalizeTimestamp, hp]
  | none =>
    cases hD : dictGet exif 306 with
    | some v =>
      have hg : dictGet [("date_taken", v)] "date_taken" = some v := rfl
      simp only [hg]
      cases hp : parseExifTimestamp v with
      | some t => simp [normalizeTimestamp, hp, dictSet]
      | none => simp [normalizeTimestamp, hp]
    | none => rfl

theorem dictSet_of_not_mem {α β : Type} [DecidableEq α] {d : List (α × β)} {k : α}
    (v : β) (h : k ∉ dictKeys d) : dictSet d k v = d ++ [(k, v)] := by
  unfold dictSet
  rw [if_neg]
  intro hany
  obtain ⟨p, hp, hpk⟩ := List.any_eq_true.mp hany
  simp only [decide_eq_true_eq] at hpk
  exact h (hpk ▸ List.mem_map_of_mem Prod.fst hp)

/-! ## Pipeline characterization lemmas -/

theorem process_image_eq (task : String × String) (o : TranscodeOutcome) :
    process_image task o = (task.1, task.2, o.isOk, outcomeMeta o) := by
  cases o <;> rfl

theorem get_exif_data_shape (exif : List (ℕ × String)) :
    get_exif_data exif = [] ∨ ∃ v, get_exif_data exif = [("date_taken", v)] := by
  rw [get_exif_data_eq]
  cases dictGetLast exif 36867 with
  | some v => exact Or.inr ⟨_, rfl⟩
  | none =>
    cases dictGet exif 306 with
    | some v => exact Or.inr ⟨_, rfl⟩
    | none => exact Or.inl rfl

theorem outcomeMeta_hash_none (o : TranscodeOutcome) :
    dictGet (outcomeMeta o) "hash" = none := by
  cases o with
  | err => rfl
  | ok exif =>
    rcases get_exif_data_shape exif with h | ⟨v, h⟩ <;>
      simp [outcomeMeta, h, dictGet_cons, dictGet_nil]

theorem scanStep_fresh (env : Env) (cm : Manifest)
    (acc : Manifest × List (String × String)) (f : String)
    (h : isFresh env cm f = true) :
    scanStep env cm acc f = (dictSet acc.1 f (freshEntry env cm f), acc.2) := by
  have hnp : needsProcessing (dictGet cm f) (env.fileHash f)
      (env.destExists (stem f ++ ".webp")) = false := by
    simpa [isFresh] using h
  cases hcm : dictGet cm f with
  | none =>
    rw [hcm] at hnp
    simp [needsProcessing] at hnp
  | some e =>
    cases e with
    | legacy s =>
      rw [hcm] at hnp
      simp [needsProcessing, ite_self] at hnp
    | record fields =>
      rw [hcm] at hnp
      simp only [scanStep, hcm, hnp, Bool.false_eq_true, if_false, freshEntry]

theorem scanStep_reprocess (env : Env) (cm : Manifest)
    (acc : Manifest × List (String × String)) (f : String)
    (h : isFresh env cm f = false) :
    scanStep env cm acc f = (acc.1, acc.2 ++ [(f, env.fileHash f)]) := by
  have hnp : needsProcessing (dictGet cm f) (env.fileHash f)
      (env.destExists (stem f ++ ".webp")) = true := by
    simpa [isFresh] using h
  simp only [scanStep, hnp, if_true]

theorem scanFold_aux (env : Env) (cm : Manifest) (fs : List String)
    (acc : Manifest × List (String × String)) (hnd : fs.Nodup)
    (hdisj : ∀ f ∈ fs, f ∉ dictKeys acc.1) :
    fs.foldl (scanStep env cm) acc =
      (acc.1 ++ (fs.filter (fun f => isFresh env cm f)).map
          (fun f => (f, freshEntry env cm f)),
        acc.2 ++ (fs.filter (fun f => !isFresh env cm f)).map
          (fun f => (f, env.fileHash f))) := by
  induction fs generalizing acc with
  | nil => simp
  | cons f t ih =>
    rw [List.foldl_cons]
    rw [List.nodup_cons] at hnd
    by_cases hfr : isFresh env cm f
    · rw [scanStep_fresh env cm acc f hfr]
      rw [ih (dictSet acc.1 f (freshEntry env cm f), acc.2) hnd.2 ?hd2]
      case hd2 =>
        intro g hg
        simp only
        rw [dictKeys_set, if_neg (hdisj f (List.mem_cons_self f t))]
        intro hgmem
        rcases List.mem_append.mp hgmem with hh | hh
        · exact hdisj g (List.mem_cons_of_mem f hg) hh
        · have hgf : g = f := by simpa using hh
          exact hnd.1 (hgf ▸ hg)
      rw [dictSet_of_not_mem _ (hdisj f (List.mem_cons_self f t))]
      simp [hfr, List.filter_cons]
    · have hfr2 : isFresh env cm f = false := by simpa using hfr
      rw [scanStep_reprocess env cm acc f hfr2]
      rw [ih (acc.1, acc.2 ++ [(f, env.fileHash f)]) hnd.2
        (fun g hg => hdisj g (List.mem_cons_of_mem f hg))]
      simp [hfr2, List.filter_cons]

theorem scanFiles_eq (env : Env) (cm : Manifest) (hnd : env.files.Nodup) :
    scanFiles env cm =
      ((env.files.filter (fun f => isFresh env cm f)).map
          (fun f => (f, freshEntry env cm f)),
        (env.files.filter (fun f => !isFresh env cm f)).map
          (fun f => (f, env.fileHash f))) := by
  unfold scanFiles
  rw [scanFold_aux env cm env.files ([], []) hnd (by simp [dictKeys])]
  simp

theorem mergeResults_cons (env : Env) (a : String × String)
    (t : List (String × String)) (nm : Manifest) :
    mergeResults env (a :: t) nm =
      mergeResults env t
        (if (env.outcome a.1).isOk then
          dictSet nm a.1 (Entry.record (resultEntry env a.1 a.2
            (outcomeMeta (env.outcome a.1))))
        else nm) := by
  unfold mergeResults
  rw [List.map_cons, List.foldl_cons, process_image_eq]

theorem mergeResults_aux (env : Env) (ts : List (String × String)) (nm : Manifest)
    (hnd : (ts.map Prod.fst).Nodup)
    (hdisj : ∀ t ∈ ts, t.1 ∉ dictKeys nm) :
    mergeResults env ts nm =
      nm ++ (ts.filter (fun t => (env.outcome t.1).isOk)).map
          (fun t => (t.1, Entry.record (resultEntry env t.1 t.2
            (outcomeMeta (env.outcome t.1))))) := by
  induction ts generalizing nm with
  | nil => simp [mergeResults]
  | cons a t ih =>
    rw [mergeResults_cons]
    have hnd2 : a.1 ∉ t.map Prod.fst ∧ (t.map Prod.fst).Nodup := by
      simpa using hnd
    cases ho : (env.outcome a.1).isOk with
    | false =>
      rw [if_neg (by simp [ho])]
      rw [ih nm hnd2.2 (fun b hb => hdisj b (List.mem_cons_of_mem a hb))]
      simp [List.filter_cons, ho]
    | true =>
      rw [if_pos (by simp [ho])]
      rw [ih (dictSet nm a.1 (Entry.record (resultEntry env a.1 a.2
          (outcomeMeta (env.outcome a.1))))) hnd2.2 ?hd2]
      case hd2 =>
        intro b hb
        rw [dictKeys_set, if_neg (hdisj a (List.mem_cons_self a t))]
        intro hbmem
        rcases List.mem_append.mp hbmem with hh | hh
        · exact hdisj b (List.mem_cons_of_mem a hb) hh
        · have hba : b.1 = a.1 := by simpa using hh
          exact hnd2.1 (hba ▸ List.mem_map_of_mem Prod.fst hb)
      rw [dictSet_of_not_mem _ (hdisj a (List.mem_cons_self a t))]
      simp [List.filter_cons, ho]

theorem runMain_eq (env : Env) (cm : Manifest) (hnd : env.files.Nodup) :
    runMain env cm =
      ((env.files.filter (fun f => isFresh env cm f)).map
          (fun f => (f, freshEntry env cm f)) ++
        ((env.files.filter (fun f => !isFresh env cm f)).filter
            (fun f => (env.outcome f).isOk)).map
          (fun f => (f, Entry.record (resultEntry env f (env.fileHash f)
            (outcomeMeta (env.outcome f))))),
        (env.files.filter (fun f => !isFresh env cm f)).map
          (fun f => (f, env.fileHash f))) := by
  unfold runMain
  rw [scanFiles_eq env cm hnd]
  simp only
  rw [mergeResults_aux env _ _ ?hnd2 ?hdisj2]
  case hnd2 =>
    simp only [List.map_map]
    have hid : (Prod.fst ∘ fun f => (f, env.fileHash f)) = (id : String → String) := rfl
    rw [hid, List.map_id]
    exact hnd.filter _
  case hdisj2 =>
    intro t ht
    obtain ⟨g, hg, rfl⟩ := List.mem_map.mp ht
    simp only [dictKeys, List.map_map]
    have hid : (Prod.fst ∘ fun f : String => (f, freshEntry env cm f)) =
        (id : String → String) := rfl
    rw [hid, List.map_id]
    intro hmem
    have h1 := (List.mem_filter.mp hmem).2
    have h2 := (List.mem_filter.mp hg).2
    simp only [decide_eq_true_eq] at h1 h2
    rw [h1] at h2
    simp at h2
  congr 1
  rw [List.filter_map, List.map_map]
  rfl

theorem keys_map_pair {β : Type} (l : List String) (g : String → β) :
    dictKeys (l.map (fun f => (f, g f))) = l := by
  simp only [dictKeys, List.map_map]
  have hid : (Prod.fst ∘ fun f => (f, g f)) = (id : String → String) := rfl
  rw [hid, List.map_id]

theorem filter_length_partition {α : Type} (l : List α) (p : α → Bool) :
    (l.filter p).length + (l.filter (fun a => !p a)).length = l.length := by
  induction l with
  | nil => rfl
  | cons a t ih =>
    cases h : p a <;> simp [List.filter_cons, h, ← ih] <;> omega

theorem dictGet_map_pair_self {β : Type} {l : List String} (g : String → β)
    {f : String} (hnd : l.Nodup) (hf : f ∈ l) :
    dictGet (l.map (fun x => (x, g x))) f = some (g f) := by
  have hmem : (f, g f) ∈ l.map (fun x => (x, g x)) := List.mem_map_of_mem _ hf
  have hk : (dictKeys (l.map (fun x => (x, g x)))).Nodup := by
    rw [keys_map_pair]; exact hnd
  exact dictGet_of_mem_nodup hk hmem

theorem dictGet_map_pair_none {β : Type} {l : List String} (g : String → β)
    {f : String} (hf : f ∉ l) : dictGet (l.map (fun x => (x, g x))) f = none := by
  rw [dictGet_eq_none_iff, keys_map_pair]
  exact hf

theorem runMain_get_fresh (env : Env) (cm : Manifest) (hnd : env.files.Nodup)
    {f : String} (hf : f ∈ env.files) (hfr : isFresh env cm f = true) :
    dictGet (runMain env cm).1 f = some (freshEntry env cm f) := by
  rw [runMain_eq env cm hnd]
  simp only
  rw [dictGet_append,
    dictGet_map_pair_self _ (hnd.filter _) (List.mem_filter.mpr ⟨hf, by simp [hfr]⟩)]
  rfl

theorem runMain_get_task (env : Env) (cm : Manifest) (hnd : env.files.Nodup)
    {f : String} (hf : f ∈ env.files) (hfr : isFresh env cm f = false)
    (hok : (env.outcome f).isOk = true) :
    dictGet (runMain env cm).1 f =
      some (Entry.record (resultEntry env f (env.fileHash f)
        (outcomeMeta (env.outcome f)))) := by
  rw [runMain_eq env cm hnd]
  simp only
  rw [dictGet_append, dictGet_map_pair_none _ ?hnotin, Option.none_or,
    dictGet_map_pair_self _ ((hnd.filter _).filter _)
      (List.mem_filter.mpr ⟨List.mem_filter.mpr ⟨hf, by simp [hfr]⟩, by simp [hok]⟩)]
  case hnotin =>
    intro hmem
    have hx := (List.mem_filter.mp hmem).2
    simp [hfr] at hx

theorem runMain_get_absent (env : Env) (cm : Manifest) (hnd : env.files.Nodup)
    {f : String} (hf : f ∉ env.files) : dictGet (runMain env cm).1 f = none := by
  have h1 : f ∉ env.files.filter (fun f => isFresh env cm f) :=
    fun hmem => hf (List.mem_filter.mp hmem).1
  have h2 : f ∉ (env.files.filter (fun f => !isFresh env cm f)).filter
      (fun f => (env.outcome f).isOk) :=
    fun hmem => hf (List.mem_filter.mp (List.mem_filter.mp hmem).1).1
  rw [runMain_eq env cm hnd]
  simp only
  rw [dictGet_append, dictGet_map_pair_none _ h1, dictGet_map_pair_none _ h2]
  rfl

theorem dict_ext {α β : Type} [DecidableEq α] {d1 d2 : List (α × β)}
    (hk : dictKeys d1 = dictKeys d2) (hnd : (dictKeys d1).Nodup)
    (hg : ∀ k, dictGet d1 k = dictGet d2 k) : d1 = d2 := by
  induction d1 generalizing d2 with
  | nil =>
    cases d2 with
    | nil => rfl
    | cons b t2 => simp [dictKeys] at hk
  | cons a t ih =>
    cases d2 with
    | nil => simp [dictKeys] at hk
    | cons b t2 =>
      simp only [dictKeys, List.map_cons, List.cons.injEq] at hk
      simp only [dictKeys, List.map_cons, List.nodup_cons] at hnd
      have hval : a.2 = b.2 := by
        have h1 := hg a.1
        rw [dictGet_cons, if_pos rfl, dictGet_cons, if_pos hk.1.symm] at h1
        exact Option.some.inj h1
      have hpair : a = b := by
        obtain ⟨a1, a2⟩ := a
        obtain ⟨b1, b2⟩ := b
        simp only at hk hval
        rw [hk.1, hval]
      have htail : t = t2 := by
        apply ih hk.2 hnd.2
        intro k
        by_cases hka : a.1 = k
        · subst hka
          have ht1 : dictGet t a.1 = none := (dictGet_eq_none_iff t a.1).mpr hnd.1
          have ht2 : dictGet t2 a.1 = none := by
            rw [dictGet_eq_none_iff]
            simp only [dictKeys]
            rw [← hk.2]
            exact hnd.1
          rw [ht1, ht2]
        · have h1 := hg k
          rw [dictGet_cons, if_neg hka, dictGet_cons,
            if_neg (fun he => hka (hk.1.trans he))] at h1
          exact h1
      rw [hpair, htail]

theorem fresh_inversion {env : Env} {cm : Manifest} {f : String}
    (h : isFresh env cm f = true) :
    ∃ fields0, dictGet cm f = some (Entry.record fields0) ∧ fields0 ≠ [] ∧
      dictGet fields0 "hash" = some (env.fileHash f) ∧
      env.destExists (stem f ++ ".webp") = true := by
  have hnp : needsProcessing (dictGet cm f) (env.fileHash f)
      (env.destExists (stem f ++ ".webp")) = false := by
    simpa [isFresh] using h
  cases hcm : dictGet cm f with
  | none =>
    rw [hcm] at hnp
    simp [needsProcessing] at hnp
  | some e =>
    cases e with
    | legacy s =>
      rw [hcm] at hnp
      simp [needsProcessing, ite_self] at hnp
    | record fields =>
      rw [hcm] at hnp
      by_cases hemp : fields = []
      · subst hemp
        simp [needsProcessing, entryFalsy] at hnp
      · have hfalsy : entryFalsy (Entry.record fields) = false := by
          cases fields with
          | nil => exact absurd rfl hemp
          | cons a t => rfl
        simp only [needsProcessing, hfalsy, Bool.false_eq_true, if_false] at hnp
        by_cases hhash : dictGet fields "hash" = some (env.fileHash f)
        · rw [if_neg (fun hcon => hcon hhash)] at hnp
          refine ⟨fields, rfl, hemp, hhash, ?_⟩
          simpa using hnp
        · rw [if_pos hhash] at hnp
          exact absurd hnp (by simp)

theorem needsProcessing_false_of {fields : List (String × String)} {fh : String}
    (hne : fields ≠ []) (hhash : dictGet fields "hash" = some fh) :
    needsProcessing (some (Entry.record fields)) fh true = false := by
  have h1 : entryFalsy (Entry.record fields) = false := by
    cases fields with
    | nil => exact absurd rfl hne
    | cons a t => rfl
  simp [needsProcessing, h1, hhash]

theorem needsProcessing_of_hash_ne {fields : List (String × String)} {v h2 : String}
    (hget : dictGet fields "hash" = some v) (hne : v ≠ h2) (d2 : Bool) :
    needsProcessing (some (Entry.record fields)) h2 d2 = true := by
  have hne2 : fields ≠ [] := List.ne_nil_of_mem (mem_of_dictGet_eq_some hget)
  have h1 : entryFalsy (Entry.record fields) = false := by
    cases fields with
    | nil => exact absurd rfl hne2
    | cons a t => rfl
  have hcond : dictGet fields "hash" ≠ some h2 := by
    rw [hget]
    exact fun hcon => hne (Option.some.inj hcon)
  simp only [needsProcessing, h1, Bool.false_eq_true, if_false, if_pos hcond]

theorem resultEntry_props (env : Env) (f fh : String)
    (hovOK : ∀ p ∈ env.userMeta, dictGet p.2 "hash" = none ∧ (dictKeys p.2).Nodup)
    (o : TranscodeOutcome) :
    resultEntry env f fh (outcomeMeta o) ≠ [] ∧
    dictGet (resultEntry env f fh (outcomeMeta o)) "hash" = some fh ∧
    (∀ ov, dictGet env.userMeta f = some ov →
      dictUpdate (resultEntry env f fh (outcomeMeta o)) ov =
        resultEntry env f fh (outcomeMeta o)) := by
  have hbase_ne : ([("hash", fh), ("filename", f),
      ("optimized_path", "optimized/" ++ stem f ++ ".webp")] :
      List (String × String)) ≠ [] := by simp
  have hbase_hash : dictGet [("hash", fh), ("filename", f),
      ("optimized_path", "optimized/" ++ stem f ++ ".webp")] "hash" = some fh := by
    rw [dictGet_cons, if_pos rfl]
  have hbase_nodup : (dictKeys ([("hash", fh), ("filename", f),
      ("optimized_path", "optimized/" ++ stem f ++ ".webp")] :
      List (String × String))).Nodup := by
    simp only [dictKeys, List.map_cons, List.map_nil]
    decide
  have hmeta_last : dictGetLast (outcomeMeta o) "hash" = none := by
    rw [dictGetLast_eq_none_iff]
    cases o with
    | err => simp [outcomeMeta, dictKeys]
    | ok exif =>
      rcases get_exif_data_shape exif with hsh | ⟨v, hsh⟩ <;>
        simp [outcomeMeta, hsh, dictKeys]
  have hb_ne : dictUpdate [("hash", fh), ("filename", f),
      ("optimized_path", "optimized/" ++ stem f ++ ".webp")] (outcomeMeta o) ≠ [] :=
    dictUpdate_ne_nil _ hbase_ne
  have hb_hash : dictGet (dictUpdate [("hash", fh), ("filename", f),
      ("optimized_path", "optimized/" ++ stem f ++ ".webp")] (outcomeMeta o))
      "hash" = some fh := by
    rw [dictGet_update, hmeta_last, Option.none_or, hbase_hash]
  have hb_nodup : (dictKeys (dictUpdate [("hash", fh), ("filename", f),
      ("optimized_path", "optimized/" ++ stem f ++ ".webp")] (outcomeMeta o))).Nodup :=
    dictKeys_update_nodup _ hbase_nodup
  cases hov : dictGet env.userMeta f with
  | none =>
    refine ⟨?_, ?_, ?_⟩
    · simpa [resultEntry, hov] using hb_ne
    · simpa [resultEntry, hov] using hb_hash
    · intro ov h
      cases h
  | some ov =>
    obtain ⟨hOhash, hOnodup⟩ := hovOK _ (mem_of_dictGet_eq_some hov)
    have hOlast : dictGetLast ov "hash" = none :=
      (dictGetLast_eq_none_iff ov "hash").mpr ((dictGet_eq_none_iff ov "hash").mp hOhash)
    refine ⟨?_, ?_, ?_⟩
    · simpa [resultEntry, hov] using dictUpdate_ne_nil ov hb_ne
    · have : dictGet (dictUpdate (dictUpdate [("hash", fh), ("filename", f),
          ("optimized_path", "optimized/" ++ stem f ++ ".webp")] (outcomeMeta o)) ov)
          "hash" = some fh := by
        rw [dictGet_update, hOlast, Option.none_or, hb_hash]
      simpa [resultEntry, hov] using this
    · intro ov' h
      obtain rfl := Option.some.inj h
      simpa [resultEntry, hov] using dictUpdate_idem hb_nodup hOnodup

theorem freshEntry_props (env : Env) (cm : Manifest) {f : String}
    (hfr : isFresh env cm f = true)
    (hovOK : ∀ p ∈ env.userMeta, dictGet p.2 "hash" = none ∧ (dictKeys p.2).Nodup)
    (hcm : ∀ p ∈ cm, ∀ fields, p.2 = Entry.record fields → (dictKeys fields).Nodup) :
    ∃ fields, freshEntry env cm f = Entry.record fields ∧ fields ≠ [] ∧
      dictGet fields "hash" = some (env.fileHash f) ∧
      (∀ ov, dictGet env.userMeta f = some ov → dictUpdate fields ov = fields) := by
  obtain ⟨fields0, hcm0, hne0, hhash0, _⟩ := fresh_inversion hfr
  have hnd0 : (dictKeys fields0).Nodup :=
    hcm _ (mem_of_dictGet_eq_some hcm0) fields0 rfl
  cases hov : dictGet env.userMeta f with
  | none =>
    refine ⟨fields0, ?_, hne0, hhash0, ?_⟩
    · simp [freshEntry, hcm0, hov]
    · intro ov h
      cases h
  | some ov =>
    obtain ⟨hOhash, hOnodup⟩ := hovOK _ (mem_of_dictGet_eq_some hov)
    have hOlast : dictGetLast ov "hash" = none :=
      (dictGetLast_eq_none_iff ov "hash").mpr ((dictGet_eq_none_iff ov "hash").mp hOhash)
    refine ⟨dictUpdate fields0 ov, ?_, dictUpdate_ne_nil _ hne0, ?_, ?_⟩
    · simp [freshEntry, hcm0, hov]
    · rw [dictGet_update, hOlast, Option.none_or, hhash0]
    · intro ov' h
      obtain rfl := Option.some.inj h
      exact dictUpdate_idem hnd0 hOnodup

theorem firstRun_entry (env : Env) (cm : Manifest) (hnd : env.files.Nodup)
    (hok : ∀ f ∈ env.files, (env.outcome f).isOk = true)
    (hovOK : ∀ p ∈ env.userMeta, dictGet p.2 "hash" = none ∧ (dictKeys p.2).Nodup)
    (hcm : ∀ p ∈ cm, ∀ fields, p.2 = Entry.record fields → (dictKeys fields).Nodup)
    {f : String} (hf : f ∈ env.files) :
    ∃ fields, dictGet (runMain env cm).1 f = some (Entry.record fields) ∧
      fields ≠ [] ∧ dictGet fields "hash" = some (env.fileHash f) ∧
      (∀ ov, dictGet env.userMeta f = some ov → dictUpdate fields ov = fields) := by
  by_cases hfr : isFresh env cm f
  · obtain ⟨fields, hfe, hne, hhash, hidem⟩ := freshEntry_props env cm hfr hovOK hcm
    exact ⟨fields, by rw [runMain_get_fresh env cm hnd hf hfr, hfe], hne, hhash, hidem⟩
  · have hfr2 : isFresh env cm f = false := by simpa using hfr
    have hre := resultEntry_props env f (env.fileHash f) hovOK (env.outcome f)
    exact ⟨_, runMain_get_task env cm hnd hf hfr2 (hok f hf), hre.1, hre.2.1, hre.2.2⟩

theorem destExists_after (env : Env) (cm : Manifest) (hnd : env.files.Nodup)
    (hok : ∀ f ∈ env.files, (env.outcome f).isOk = true) {f : String}
    (hf : f ∈ env.files) :
    (envAfter env (runMain env cm).2).destExists (stem f ++ ".webp") = true := by
  by_cases hfr : isFresh env cm f
  · obtain ⟨_, _, _, hde⟩ := fresh_inversion hfr
    simp [envAfter, hde]
  · have hfr2 : isFresh env cm f = false := by simpa using hfr
    simp only [envAfter]
    rw [Bool.or_eq_true]
    refine Or.inr ?_
    rw [List.any_eq_true]
    refine ⟨(f, env.fileHash f), ?_, ?_⟩
    · rw [runMain_eq env cm hnd]
      exact List.mem_map_of_mem _ (List.mem_filter.mpr ⟨hf, by simp [hfr2]⟩)
    · simp [hok f hf]

theorem second_run_fresh (env : Env) (cm : Manifest) (hnd : env.files.Nodup)
    (hok : ∀ f ∈ env.files, (env.outcome f).isOk = true)
    (hovOK : ∀ p ∈ env.userMeta, dictGet p.2 "hash" = none ∧ (dictKeys p.2).Nodup)
    (hcm : ∀ p ∈ cm, ∀ fields, p.2 = Entry.record fields → (dictKeys fields).Nodup)
    {f : String} (hf : f ∈ env.files) :
    isFresh (envAfter env (runMain env cm).2) (runMain env cm).1 f = true := by
  obtain ⟨fields, hget, hne, hhash, _⟩ := firstRun_entry env cm hnd hok hovOK hcm hf
  have hde := destExists_after env cm hnd hok hf
  simp only [isFresh, envAfter] at hde ⊢
  rw [hget, hde, needsProcessing_false_of hne hhash]
  rfl

/-! ## C8: capture-time metadata extraction -/

/-- C8: on an EXIF mapping (unique tag ids, as in a real EXIF dict),
`get_exif_data` prefers the `DateTimeOriginal` value and falls back to
`DateTime` only when the former is absent; the stored value is the found
timestamp normalized to ISO-8601 when `strptime` accepts it in the
`YYYY:MM:DD HH:MM:SS` capture-metadata format (including unpadded fields
and extra whitespace, as CPython does), and the raw value unchanged
otherwise.  Extraction is a total function — it cannot fail the per-file
operation. -/
theorem exif_extraction_prefers_original (exif : List (ℕ × String))
    (hnd : (dictKeys exif).Nodup) :
    (get_exif_data exif =
      match dictGet exif 36867, dictGet exif 306 with
      | some v, _ => [("date_taken", normalizeTimestamp v)]
      | none, some v => [("date_taken", normalizeTimestamp v)]
      | none, none => []) ∧
    (∀ s t, parseExifTimestamp s = some t → normalizeTimestamp s = isoformat t) ∧
    (∀ s, parseExifTimestamp s = none → normalizeTimestamp s = s) := by
  refine ⟨?_, ?_, ?_⟩
  · rw [get_exif_data_eq, dictGetLast_of_nodup 36867 hnd]
  · intro s t h
    simp [normalizeTimestamp, h]
  · intro s h
    simp [normalizeTimestamp, h]

/-- Concrete instance of C8: `DateTimeOriginal` is preferred over a
`DateTime` appearing earlier in the mapping and its unparseable value is
preserved raw; an unpadded timestamp, which CPython's `strptime`
accepts, is normalized to ISO-8601. -/
theorem exif_extraction_prefers_original_witness :
    (get_exif_data [(306, "2020:06:07 08:09:10"), (36867, "2019:01:02 99:99:99")] =
      [("date_taken", "2019:01:02 99:99:99")]) ∧
    (get_exif_data [(36867, "2019:1:2 3:4:5")] =
      [("date_taken", "2019-01-02T03:04:05")]) := by
  constructor
  · have h := (exif_extraction_prefers_original
        [(306, "2020:06:07 08:09:10"), (36867, "2019:01:02 99:99:99")] (by decide)).1
    rw [h]
    decide
  · have h := (exif_extraction_prefers_original
        [(36867, "2019:1:2 3:4:5")] (by decide)).1
    rw [h]
    decide

/-! ## C5: manifest load never fails -/

/-- C5: `load_json` is total and returns the empty manifest on a missing
file or a malformed document, and the parsed document otherwise; manifest
corruption degrades to reprocessing everything rather than halting. -/
theorem load_json_never_fails :
    (∀ (β : Type) (parse : String → Option (List (String × β))),
        load_json .missing parse = []) ∧
    (∀ (β : Type) (s : String) (parse : String → Option (List (String × β))),
        parse s = none → load_json (.contents s) parse = []) ∧
    (∀ (β : Type) (s : String) (parse : String → Option (List (String × β)))
        (d : List (String × β)),
        parse s = some d → load_json (.contents s) parse = d) := by
  refine ⟨fun β parse => rfl, fun β s parse h => ?_, fun β s parse d h => ?_⟩
  · simp [load_json, h]
  · simp [load_json, h]

/-- Concrete instance of C5: a manifest file holding a malformed document
loads as the empty manifest. -/
theorem load_json_never_fails_witness :
    load_json (.contents "not json")
        (fun _ => (none : Option (List (String × Entry)))) = [] :=
  load_json_never_fails.2.1 Entry "not json" (fun _ => none) rfl

/-! ## C6: the manifest save is not atomic (code bug)

The spec requires write-to-temp-then-rename; `save_json` instead opens the
manifest path itself with mode w, truncating it, and then writes into
it.  Immediately after the truncate, a concurrent reader of the path sees
an empty file: neither the complete old document nor the complete new one. -/

/-- C6 (failing input evaluated): saving a new manifest document over an
existing one passes through an intermediate state in which the manifest
path holds the empty string, which differs from both the old and the new
document.  This contradicts the required write-to-temp-then-rename
behaviour. -/
theorem save_json_not_atomic :
    contentAfter
        (fun p => if p = "optimized/manifest.json"
          then some "\x7b\n  \"a.jpg\": \"aaaa\"\n\x7d" else none)
        ((save_json_ops "\x7b\n  \"b.jpg\": \"bbbb\"\n\x7d"
          "optimized/manifest.json").take 1)
        "optimized/manifest.json" = some "" ∧
      some "" ≠ some "\x7b\n  \"a.jpg\": \"aaaa\"\n\x7d" ∧
      some "" ≠ some "\x7b\n  \"b.jpg\": \"bbbb\"\n\x7d" ∧
      contentAfter
        (fun p => if p = "optimized/manifest.json"
          then some "\x7b\n  \"a.jpg\": \"aaaa\"\n\x7d" else none)
        (save_json_ops "\x7b\n  \"b.jpg\": \"bbbb\"\n\x7d" "optimized/manifest.json")
        "optimized/manifest.json" = some "\x7b\n  \"b.jpg\": \"bbbb\"\n\x7d" := by
  refine ⟨rfl, by decide, by decide, rfl⟩

/-! ## C7: downscaling misses the 2400 bound by one pixel (code bug)

In exact arithmetic `int(width * (2400 / width))` is `2400`, but both
operations round to binary64: at `width = 4231` the product evaluates to
the double just below `2400`, and `int` truncates it to `2399`.  The spec
requires the longer side to equal the bound exactly. -/

/-- C7 (failing input evaluated): a 4231 x 1000 image is resized to
2399 x 567 — the longer side misses the specified 2400 by one pixel —
while an in-bounds image is left unresized and a power-of-two oversize
lands exactly on the bound. -/
theorem resize_longer_side_misses_bound :
    resizeDims 4231 1000 = (2399, 567) ∧
      resizeDims 2400 2400 = (2400, 2400) ∧
      resizeDims 4800 2400 = (2400, 1200) :=
  ⟨by decide, by decide, by decide⟩

/-! ## C9: codec migration renames manifest keys -/

/-- C9 as frozen is refuted: when a non-empty AVIF derivative is already
present (for instance from an interrupted earlier run), the iteration
performs no re-encode, yet it still renames the metadata key — so the
rename does not happen exactly when a re-encode is performed. -/
theorem migrate_renames_without_reencode :
    migrateStep true false [("x.HEIC", [("location", "oslo")])] "x.HEIC" "x.AVIF" =
      ([("x.AVIF", [("location", "oslo")])], false) := by
  decide

/-- C9 amended: the iteration renames the key from the old filename to the
new filename exactly when a non-empty AVIF derivative is present at the
end of the iteration (freshly re-encoded or pre-existing), a re-encode is
performed exactly when no AVIF pre-existed and the conversion succeeded,
the value carried to the new key is exactly the value previously stored
under the old key, records under other keys are untouched, and an absent
old key leaves the document unchanged. -/
theorem migrate_metadata_rename (avifExists convertOk : Bool) (md : Overrides)
    (oldName newName : String) :
    (migrateStep avifExists convertOk md oldName newName =
      ((if avifExists || convertOk then renameKey md oldName newName else md),
        !avifExists && convertOk)) ∧
    (∀ v, dictGet md oldName = some v → oldName ≠ newName →
      dictGet (renameKey md oldName newName) newName = some v ∧
      dictGet (renameKey md oldName newName) oldName = none) ∧
    (dictGet md oldName = none → renameKey md oldName newName = md) ∧
    (∀ k, k ≠ oldName → k ≠ newName →
      dictGet (renameKey md oldName newName) k = dictGet md k) := by
  refine ⟨?_, ?_, ?_, ?_⟩
  · cases avifExists <;> cases convertOk <;> simp [migrateStep]
  · intro v hv hne
    constructor
    · rw [renameKey, hv, dictGet_set, if_pos rfl]
    · rw [renameKey, hv, dictGet_set, if_neg (fun he => hne he.symm),
        dictGet_pop_self]
  · intro h
    rw [renameKey, h]
  · intro k hko hkn
    cases hv : dictGet md oldName with
    | none => rw [renameKey, hv]
    | some v =>
      rw [renameKey, hv, dictGet_set, if_neg (fun he => hkn he.symm),
        dictGet_pop_other _ _ _ hko]

/-- Concrete instance of the amended C9: a successful fresh conversion
re-encodes and carries the record to the AVIF key, leaving other records
alone. -/
theorem migrate_metadata_rename_witness :
    migrateStep false true [("a.HEIC", [("tags", "x")]), ("b.jpg", [("tags", "y")])]
        "a.HEIC" "a.AVIF" =
      ([("b.jpg", [("tags", "y")]), ("a.AVIF", [("tags", "x")])], true) ∧
    dictGet (renameKey [("a.HEIC", [("tags", "x")]), ("b.jpg", [("tags", "y")])]
        "a.HEIC" "a.AVIF") "a.AVIF" = some [("tags", "x")] := by
  constructor
  · rw [(migrate_metadata_rename false true
        [("a.HEIC", [("tags", "x")]), ("b.jpg", [("tags", "y")])] "a.HEIC" "a.AVIF").1]
    decide
  · exact ((migrate_metadata_rename false true
        [("a.HEIC", [("tags", "x")]), ("b.jpg", [("tags", "y")])] "a.HEIC"
        "a.AVIF").2.1 [("tags", "x")] (by decide) (by decide)).1

/-! ## C3: per-file failure isolation -/

/-- C3: an exception in the worker is caught at the task boundary and
reported as a per-file failure tuple — same filename and hash, success
false, empty metadata; a failed result adds no manifest entry, so the
final manifest keys are exactly the fresh files followed by the
successful task files, and with N tasks of which K fail the manifest size
is the fresh count plus N minus K. -/
theorem per_file_failures_isolated (env : Env) (cm : Manifest)
    (hnd : env.files.Nodup) :
    (∀ task, process_image task TranscodeOutcome.err = (task.1, task.2, false, [])) ∧
    dictKeys (runMain env cm).1 =
      env.files.filter (fun f => isFresh env cm f) ++
        (env.files.filter (fun f => !isFresh env cm f)).filter
          (fun f => (env.outcome f).isOk) ∧
    (runMain env cm).1.length +
        ((runMain env cm).2.filter (fun t => !(env.outcome t.1).isOk)).length =
      (env.files.filter (fun f => isFresh env cm f)).length +
        (runMain env cm).2.length := by
  refine ⟨fun task => rfl, ?_, ?_⟩
  · rw [runMain_eq env cm hnd]
    simp only [dictKeys, List.map_append, List.map_map]
    rw [show (Prod.fst ∘ fun f => (f, freshEntry env cm f)) =
      (id : String → String) from rfl]
    rw [show (Prod.fst ∘ fun f => (f, Entry.record (resultEntry env f (env.fileHash f)
      (outcomeMeta (env.outcome f))))) = (id : String → String) from rfl]
    rw [List.map_id, List.map_id]
  · rw [runMain_eq env cm hnd]
    simp only [List.length_append, List.length_map]
    rw [List.filter_map, List.length_map]
    rw [show ((fun t : String × String => !(env.outcome t.1).isOk) ∘
      (fun f => (f, env.fileHash f))) = fun f => !(env.outcome f).isOk from rfl]
    have hpart := filter_length_partition
      (env.files.filter (fun f => !isFresh env cm f)) (fun f => (env.outcome f).isOk)
    omega

/-- Concrete instance of C3: one good and one undecodable file yield a
manifest with exactly the good file. -/
theorem per_file_failures_isolated_witness :
    dictKeys (runMain envFail []).1 = ["good.jpg"] ∧
      (runMain envFail []).1.length + 1 = (runMain envFail []).2.length := by
  have h := per_file_failures_isolated envFail [] (by decide)
  constructor
  · rw [h.2.1]
    decide
  · have h2 := h.2.2
    have e1 : ((runMain envFail []).2.filter
        (fun t => !(envFail.outcome t.1).isOk)).length = 1 := by decide
    have e2 : (envFail.files.filter (fun f => isFresh envFail [] f)).length = 0 := by
      decide
    omega

/-! ## C4: user overrides take field-level precedence -/

/-- C4: wherever a filename has both pipeline-derived fields and a user
override, the final record is the derived record with the override laid
over it field by field — an override field's value always wins, a field
absent from the override keeps its derived value, and this holds both for
fresh entries copied forward and for freshly transcoded entries. -/
theorem override_precedence (env : Env) (cm : Manifest) (hnd : env.files.Nodup)
    (f : String) (ov : List (String × String))
    (hov : dictGet env.userMeta f = some ov) (hnov : (dictKeys ov).Nodup) :
    (∀ fields, f ∈ env.files → isFresh env cm f = true →
      dictGet cm f = some (Entry.record fields) →
      dictGet (runMain env cm).1 f = some (Entry.record (dictUpdate fields ov))) ∧
    (f ∈ env.files → isFresh env cm f = false → (env.outcome f).isOk = true →
      dictGet (runMain env cm).1 f = some (Entry.record (dictUpdate
        (dictUpdate [("hash", env.fileHash f), ("filename", f),
          ("optimized_path", "optimized/" ++ stem f ++ ".webp")]
          (outcomeMeta (env.outcome f))) ov))) ∧
    (∀ (d : List (String × String)) k v, dictGet ov k = some v →
      dictGet (dictUpdate d ov) k = some v) ∧
    (∀ (d : List (String × String)) k, dictGet ov k = none →
      dictGet (dictUpdate d ov) k = dictGet d k) := by
  refine ⟨?_, ?_, ?_, ?_⟩
  · intro fields hf hfr hcm
    rw [runMain_get_fresh env cm hnd hf hfr]
    simp [freshEntry, hcm, hov]
  · intro hf hfr hok
    rw [runMain_get_task env cm hnd hf hfr hok]
    simp [resultEntry, hov]
  · intro d k v h
    rw [dictGet_update, dictGetLast_of_nodup k hnov, h]
    rfl
  · intro d k h
    rw [dictGet_update,
      (dictGetLast_eq_none_iff ov k).mpr ((dictGet_eq_none_iff ov k).mp h),
      Option.none_or]

/-- Concrete instance of C4: a fresh file's override replaces `location`
while its derived `hash` survives. -/
theorem override_precedence_witness :
    dictGet (runMain envFresh cmFresh).1 "a.jpg" =
      some (Entry.record [("hash", "h"), ("location", "oslo")]) := by
  have h := (override_precedence envFresh cmFresh (by decide) "a.jpg"
    [("location", "oslo")] (by decide) (by decide)).1
    [("hash", "h"), ("location", "x")] (by decide) (by decide) (by decide)
  rw [h]
  decide

/-! ## C10: overrides are applied to reserved keys too -/

/-- C10: the override overlay is unconditional: an override carrying the
reserved `hash` key replaces the pipeline-computed hash in the final
record (for transcoded entries and fresh copies alike), and that stored
override value is exactly what the next run's change detection compares
the fresh hash against. -/
theorem override_clobbers_reserved (env : Env) (cm : Manifest)
    (hnd : env.files.Nodup) (f : String) (ov : List (String × String)) (v : String)
    (hov : dictGet env.userMeta f = some ov) (hnov : (dictKeys ov).Nodup)
    (hhash : dictGet ov "hash" = some v) :
    (f ∈ env.files → isFresh env cm f = false → (env.outcome f).isOk = true →
      ∃ fields, dictGet (runMain env cm).1 f = some (Entry.record fields) ∧
        dictGet fields "hash" = some v ∧
        (∀ h2 d2, v ≠ h2 →
          needsProcessing (dictGet (runMain env cm).1 f) h2 d2 = true)) ∧
    (∀ fields0, f ∈ env.files → isFresh env cm f = true →
      dictGet cm f = some (Entry.record fields0) →
      ∃ fields, dictGet (runMain env cm).1 f = some (Entry.record fields) ∧
        dictGet fields "hash" = some v) := by
  constructor
  · intro hf hfr hok
    have hget := runMain_get_task env cm hnd hf hfr hok
    have hfv : dictGet (resultEntry env f (env.fileHash f)
        (outcomeMeta (env.outcome f))) "hash" = some v := by
      simp only [resultEntry, hov]
      rw [dictGet_update, dictGetLast_of_nodup _ hnov, hhash]
      rfl
    refine ⟨_, hget, hfv, ?_⟩
    intro h2 d2 hne
    rw [hget]
    exact needsProcessing_of_hash_ne hfv hne d2
  · intro fields0 hf hfr hcm
    have hget := runMain_get_fresh env cm hnd hf hfr
    refine ⟨dictUpdate fields0 ov, ?_, ?_⟩
    · rw [hget]
      simp [freshEntry, hcm, hov]
    · rw [dictGet_update, dictGetLast_of_nodup _ hnov, hhash]
      rfl

/-- Concrete instance of C10: an override hash `deadbeef` ends up as the
stored hash of a freshly transcoded file, and the next run's change
detection sees it. -/
theorem override_clobbers_reserved_witness :
    ∃ fields, dictGet (runMain envClobber []).1 "a.jpg" =
        some (Entry.record fields) ∧ dictGet fields "hash" = some "deadbeef" := by
  obtain ⟨fields, h1, h2, _⟩ := (override_clobbers_reserved envClobber [] (by decide)
    "a.jpg" [("hash", "deadbeef")] "deadbeef" (by decide) (by decide) (by decide)).1
    (by decide) (by decide) (by decide)
  exact ⟨fields, h1, h2⟩

/-! ## C2: second-run idempotence -/

/-- C2 as frozen is refuted: with `b.jpg` tracked and fresh and `a.jpg`
new, the first run writes its manifest with keys ordered `b.jpg, a.jpg`
(fresh copies are inserted during the scan, transcode results only
afterwards), while the unchanged second run — which indeed reprocesses
nothing — copies every entry in scan order `a.jpg, b.jpg`; the two
serialized manifests differ in bytes although they are equal as
mappings. -/
theorem second_run_not_byte_identical :
    (runMain (envAfter envMix (runMain envMix cmMix).2) (runMain envMix cmMix).1).2 =
      [] ∧
    jsonDump (runMain (envAfter envMix (runMain envMix cmMix).2)
        (runMain envMix cmMix).1).1 ≠ jsonDump (runMain envMix cmMix).1 := by
  constructor
  · decide
  · decide

/-- C2 amended: provided every first-run transcode succeeds, no user
override carries the reserved `hash` field, and the input documents are
well formed (no duplicate keys), a second run over the unchanged sources,
derivatives and overrides classifies zero files as needing reprocessing
and produces a manifest equal to the first run's as a mapping; its bytes
moreover coincide whenever the first run's manifest key order equals the
scan order — in particular when the first run reprocessed everything or
nothing. -/
theorem second_run_idempotent (env : Env) (cm : Manifest) (hnd : env.files.Nodup)
    (hok : ∀ f ∈ env.files, (env.outcome f).isOk = true)
    (hovOK : ∀ p ∈ env.userMeta, dictGet p.2 "hash" = none ∧ (dictKeys p.2).Nodup)
    (hcm : ∀ p ∈ cm, ∀ fields, p.2 = Entry.record fields → (dictKeys fields).Nodup) :
    (runMain (envAfter env (runMain env cm).2) (runMain env cm).1).2 = [] ∧
    (∀ k, dictGet (runMain (envAfter env (runMain env cm).2) (runMain env cm).1).1 k =
      dictGet (runMain env cm).1 k) ∧
    (dictKeys (runMain env cm).1 = env.files →
      jsonDump (runMain (envAfter env (runMain env cm).2) (runMain env cm).1).1 =
        jsonDump (runMain env cm).1) := by
  have hnd2 : (envAfter env (runMain env cm).2).files.Nodup := hnd
  have hfilter_fresh : (envAfter env (runMain env cm).2).files.filter
      (fun f => isFresh (envAfter env (runMain env cm).2) (runMain env cm).1 f) =
      env.files :=
    List.filter_eq_self.mpr
      (fun f hf => second_run_fresh env cm hnd hok hovOK hcm hf)
  have hfilter_task : (envAfter env (runMain env cm).2).files.filter
      (fun f => !isFresh (envAfter env (runMain env cm).2) (runMain env cm).1 f) =
      [] :=
    List.filter_eq_nil_iff.mpr
      (fun f hf => by simp [second_run_fresh env cm hnd hok hovOK hcm hf])
  have hrun2 := runMain_eq (envAfter env (runMain env cm).2) (runMain env cm).1 hnd2
  rw [hfilter_fresh, hfilter_task] at hrun2
  have hpoint : ∀ k,
      dictGet (runMain (envAfter env (runMain env cm).2) (runMain env cm).1).1 k =
        dictGet (runMain env cm).1 k := by
    intro k
    rw [hrun2]
    simp only [List.filter_nil, List.map_nil, List.append_nil]
    by_cases hk : k ∈ env.files
    · rw [dictGet_map_pair_self _ hnd hk]
      obtain ⟨fields, hget, _, _, hidem⟩ :=
        firstRun_entry env cm hnd hok hovOK hcm hk
      rw [hget]
      simp only [freshEntry, hget]
      cases hov : dictGet (envAfter env (runMain env cm).2).userMeta k with
      | none => rfl
      | some ov =>
        show some (Entry.record (dictUpdate fields ov)) = some (Entry.record fields)
        rw [hidem ov hov]
    · rw [dictGet_map_pair_none _ hk, runMain_get_absent env cm hnd hk]
  refine ⟨?_, hpoint, ?_⟩
  · rw [hrun2]
    rfl
  · intro horder
    have hkeys2 : dictKeys
        (runMain (envAfter env (runMain env cm).2) (runMain env cm).1).1 =
        env.files := by
      rw [hrun2]
      simp only [List.filter_nil, List.map_nil, List.append_nil]
      exact keys_map_pair _ _
    have hm2 : (runMain (envAfter env (runMain env cm).2) (runMain env cm).1).1 =
        (runMain env cm).1 :=
      dict_ext (hkeys2.trans horder.symm) (by rw [hkeys2]; exact hnd) hpoint
    rw [hm2]

/-- Concrete instance of the amended C2: with an initially empty manifest
the second run performs zero transcodes and reproduces the manifest byte
for byte. -/
theorem second_run_idempotent_witness :
    (runMain (envAfter envMix (runMain envMix ([] : Manifest)).2)
        (runMain envMix ([] : Manifest)).1).2 = [] ∧
    jsonDump (runMain (envAfter envMix (runMain envMix ([] : Manifest)).2)
        (runMain envMix ([] : Manifest)).1).1 =
      jsonDump (runMain envMix ([] : Manifest)).1 := by
  have h := second_run_idempotent envMix [] (by decide) (by decide) (by decide)
    (by intro p hp; exact absurd hp (List.not_mem_nil p))
  exact ⟨h.1, h.2.2 (by decide)⟩

end Photos

